import Mathlib

/-!
Verification of the path-resolution and content-dispatch pipeline of the
`cloud-python` file browser (`src/main.py`), as a shallow embedding.

Modelling conventions:
* Filesystem paths are lists of segment strings (pathlib `Path.parts`).
* The filesystem is a finite tree `Entry`; a regular file carries its decoded
  text and its raw bytes (`st_size` is the byte count).  The OS-level lookup
  of a possibly-`..`-containing path is modelled by normalising the absolute
  segment list first (symlink-free POSIX resolution).
* External collaborators (template renderer, Markdown converter, CSV line
  tokenizer) are out of the repository; the Markdown converter is a function
  parameter, and the CSV line tokenizer is modelled from the spec (see
  `csvTokenizeLine`).
* Python's `float` in `DirEntry.human_format` is IEEE-754 binary64.  It is
  modelled exactly: a nonnegative finite double is a dyadic pair `(k, s)` of
  mantissa and binary exponent with value `k * 2^s`, `int`-to-`float`
  conversion and division by `1000.0` round the exact rational to 53
  significant bits (nearest, ties to even), and fixed-point `format` rounds
  the exact value of the double (nearest, ties to even).  The inputs live far
  inside the normal range, so neither subnormals nor overflow can occur and
  are not modelled.
-/

namespace Cloud

/-- `ROOT_DIR_NAME` from `main.py` line 18. -/
def ROOT_DIR_NAME : String := "Files"

/-- `DATA_PATH = Path("data/")` from `main.py` line 17, as its segments. -/
def DATA_PATH : List String := ["data"]

/-- The `Breadcrumb` dataclass (`main.py` lines 24-27). -/
structure Breadcrumb where
  name : String
  link : String
deriving DecidableEq

/-- Python's `'../' * k` (string repetition). -/
def strRepeat (s : String) (k : Nat) : String :=
  String.join (List.replicate k s)

/-- `generate_breadcrumbs` (`main.py` lines 30-43): a fixed root crumb, then
one crumb per path segment, whose link climbs `len(parts) - i - 1` levels. -/
def generate_breadcrumbs (parts : List String) : List Breadcrumb :=
  Breadcrumb.mk ROOT_DIR_NAME "/" ::
    parts.enum.map (fun ip => Breadcrumb.mk ip.2 (strRepeat "../" (parts.length - ip.1 - 1)))

/-- CPython `pathlib.PurePath.suffix` of a final path component:
`i = name.rfind('.'); name[i:] if 0 < i < len(name) - 1 else ''`. -/
def suffixOf (name : String) : String :=
  let cs := name.data
  match cs.reverse.findIdx? (fun c => c = '.') with
  | none => ""
  | some j =>
    let i := cs.length - 1 - j
    if 0 < i ∧ i < cs.length - 1 then String.mk (cs.drop i) else ""

/-- Python `str.split` on a single character: `text.split("\n")` keeps empty
pieces, and the empty string splits to one empty piece. -/
def splitChar (sep : Char) : List Char → List (List Char)
  | [] => [[]]
  | x :: rest =>
    let r := splitChar sep rest
    if x = sep then [] :: r
    else
      match r with
      | [] => [[x]]
      | h :: t => (x :: h) :: t

/-- `text.split("\n")` from `main.py` line 123. -/
def splitLines (text : String) : List String :=
  (splitChar '\n' text.data).map String.mk

/-- Modelled from the spec: the external CSV line tokenizer collaborator
(§6 "a CSV line tokenizer", §4.4 "tokenizing each line with standard CSV
quoting rules"); the `csv.reader` library itself is not part of this
repository.  State: remaining characters, inside-quotes flag, current field
(reversed), fields already finished. -/
def csvTokAux : List Char → Bool → List Char → List String → List String
  | [], _, cur, acc => acc ++ [String.mk cur.reverse]
  | '"' :: '"' :: rest, true, cur, acc => csvTokAux rest true ('"' :: cur) acc
  | '"' :: rest, true, cur, acc => csvTokAux rest false cur acc
  | c :: rest, true, cur, acc => csvTokAux rest true (c :: cur) acc
  | '"' :: rest, false, cur, acc =>
    if cur.isEmpty then csvTokAux rest true [] acc
    else csvTokAux rest false ('"' :: cur) acc
  | ',' :: rest, false, cur, acc => csvTokAux rest false [] (acc ++ [String.mk cur.reverse])
  | c :: rest, false, cur, acc => csvTokAux rest false (c :: cur) acc

/-- Modelled from the spec: tokenizing one newline-free line with standard CSV
quoting rules (an empty line yields an empty row). -/
def csvTokenizeLine (line : String) : List String :=
  if line = "" then [] else csvTokAux line.data false [] []

/-- The suffix list from `main.py` line 96. -/
def TEXT_SUFFIXES : List String := [".txt", ".css", ".html", ".js", ".rs", ".py"]

/-- The directory-entry record built for the listing template: the `DirEntry`
dataclass (`main.py` lines 139-143).  Field `path` is the relative link. -/
structure DirEntry where
  name : String
  path : String
  size : String
deriving DecidableEq

/-- One response per `return` statement of `serve`/`handle_file`/`handle_dir`:
`raw` is `Response(content=fs_path.read_bytes())`, the pages are the rendered
templates with their context payloads. -/
inductive Response where
  | raw (content : List Nat)
  | textPage (breadcrumbs : List Breadcrumb) (title : String) (content : String)
  | markdownPage (breadcrumbs : List Breadcrumb) (title : String) (content : String)
  | csvPage (breadcrumbs : List Breadcrumb) (title : String) (table : List (List String))
  | dirPage (breadcrumbs : List Breadcrumb) (title : String)
      (dir_entries : List DirEntry) (empty_directory : Bool) (readme : Option String)
deriving DecidableEq

/-- True exactly for the directory-listing view. -/
def Response.isDirPage : Response → Bool
  | .dirPage .. => true
  | _ => false

/-- `handle_file` (`main.py` lines 85-136).  `name` is the final component of
`fs_path` (which determines `fs_path.suffix`), `text`/`bytes` its decoded and
raw content, `md` the external Markdown converter collaborator
(`markdown(·, extensions=["fenced_code"])`). -/
def handle_file (breadcrumbs : List Breadcrumb) (download : Bool) (name : String)
    (text : String) (bytes : List Nat) (title : String) (md : String → String) : Response :=
  if download then .raw bytes
  else if suffixOf name ∈ TEXT_SUFFIXES then .textPage breadcrumbs title text
  else if suffixOf name = ".md" then .markdownPage breadcrumbs title (md text)
  else if suffixOf name = ".csv" then .csvPage breadcrumbs title ((splitLines text).map csvTokenizeLine)
  else .raw bytes

/-- A node of the filesystem tree: a regular file with decoded text and raw
bytes, or a directory with named children. -/
inductive Entry where
  | file (text : String) (bytes : List Nat)
  | dir (children : List (String × Entry))

/-- Lookup of a name among a directory's children. -/
def findChild : List (String × Entry) → String → Option Entry
  | [], _ => none
  | (n, c) :: rest, s => if n = s then some c else findChild rest s

/-- Walking a (already normalised) segment list down the tree: the OS path
lookup behind `exists()` / `is_dir()` / the reads. -/
def lookup : Entry → List String → Option Entry
  | e, [] => some e
  | .file _ _, _ :: _ => none
  | .dir cs, s :: rest =>
    match findChild cs s with
    | none => none
    | some c => lookup c rest

/-- POSIX normalisation of an absolute segment list: `.` vanishes, `..` pops
one level (and is a no-op at the root), symlink-free. -/
def normalize (segs : List String) : List String :=
  segs.foldl (fun acc s => if s = "." then acc else if s = ".." then acc.dropLast else acc ++ [s]) []

/-- `path.is_file()` for a tree node. -/
def is_file : Entry → Bool
  | .file _ _ => true
  | .dir _ => false

/-- `path.stat().st_size` for a regular file (directory nodes are filtered out
by `is_file` before this is read; 0 is an arbitrary value for them). -/
def st_size : Entry → Nat
  | .file _ bytes => bytes.length
  | .dir _ => 0

/-- `path.glob("*/*")` on a directory's children: every entry one level inside
an immediate child (only directory children contribute). -/
def glob_children (cs : List (String × Entry)) : List Entry :=
  (cs.map (fun nc =>
    match nc.2 with
    | .dir gcs => gcs.map Prod.snd
    | .file _ _ => [])).flatten

/-- The size computed by `DirEntry.from_path` (`main.py` lines 147-150): for a
directory, `sum(file.stat().st_size for file in path.glob("*/*") if file.is_file())`;
for a file, `path.stat().st_size`. -/
def entrySize : Entry → Nat
  | .file _ bytes => bytes.length
  | .dir cs => (((glob_children cs).filter is_file).map st_size).sum

/-- The spec's phrasing of the directory aggregate: the sum, over the
immediate child directories, of the byte lengths of their immediate file
children (grandchildren files only). -/
def grandchildrenFilesSum (cs : List (String × Entry)) : Nat :=
  (cs.map (fun nc =>
    match nc.2 with
    | .dir gcs =>
      (gcs.map (fun g =>
        match g.2 with
        | .file _ bs => bs.length
        | .dir _ => 0)).sum
    | .file _ _ => 0)).sum

/-- The units table of `DirEntry.human_format` (`main.py` line 162). -/
def UNITS : List String := ["B", "KB", "MB", "GB", "TB", "PB"]

/-- Number of binary digits of `n` (0 for 0).  The first argument is fuel,
consumed once per digit; `bits` passes `n` itself, which always suffices. -/
def bitsAux : Nat → Nat → Nat
  | 0, _ => 0
  | fuel + 1, n => if n = 0 then 0 else bitsAux fuel (n / 2) + 1

/-- Number of binary digits of `n`: `2^(bits n - 1) ≤ n < 2^(bits n)` for
`n ≥ 1`. -/
def bits (n : Nat) : Nat := bitsAux n n

/-- Whether `num / den < 2 ^ e`, cross-multiplied so only naturals appear. -/
def qLtPow2 (num den : Nat) (e : Int) : Bool :=
  if 0 ≤ e then num < 2 ^ e.toNat * den else num * 2 ^ (-e).toNat < den

/-- The floor base-2 logarithm of `num / den` (both positive): the unique `e`
with `2 ^ e ≤ num / den < 2 ^ (e + 1)`. -/
def floorLog2 (num den : Nat) : Int :=
  let e0 : Int := (bits num : Int) - (bits den : Int)
  if qLtPow2 num den e0 then e0 - 1 else e0

/-- Round `num / den` (with `den > 0`) to the nearest integer, ties to even:
the rounding of IEEE-754 round-to-nearest and of Python's fixed-point
`format`. -/
def roundHalfEvenDiv (num den : Int) : Int :=
  let n := Int.fdiv num den
  let r2 := 2 * (num - n * den)
  if r2 < den then n else if den < r2 then n + 1 else if n % 2 = 0 then n else n + 1

/-- The nonnegative rational `num / den` rounded to a binary64 double, as a
dyadic pair `(k, s)` of value `k * 2^s`: the mantissa `k` is `num / den`
scaled into `[2^52, 2^53]` and rounded to the nearest integer, ties to even.
This is both CPython's `float(int)` conversion and the rounding step of its
float division. -/
def toFloatPos (num den : Nat) : Nat × Int :=
  if num = 0 then (0, 0)
  else
    let s := floorLog2 num den - 52
    let k :=
      if 0 ≤ s then (roundHalfEvenDiv (num : Int) ((den : Int) * 2 ^ s.toNat)).toNat
      else (roundHalfEvenDiv ((num : Int) * 2 ^ (-s).toNat) (den : Int)).toNat
    (k, s)

/-- `magnitude_value /= 1000.0` on a nonnegative double `(k, s)`: the exact
quotient `k * 2^s / 1000` rounded back to a double. -/
def floatDiv1000 (v : Nat × Int) : Nat × Int :=
  if 0 ≤ v.2 then toFloatPos (v.1 * 2 ^ v.2.toNat) 1000
  else toFloatPos v.1 (1000 * 2 ^ (-v.2).toNat)

/-- The loop guard `abs(magnitude_value) >= 1000` on a nonnegative double. -/
def floatGe1000 (v : Nat × Int) : Bool :=
  if 0 ≤ v.2 then 1000 ≤ v.1 * 2 ^ v.2.toNat else 1000 * 2 ^ (-v.2).toNat ≤ v.1

/-- The `while abs(magnitude_value) >= 1000` loop of `human_format` on the
magnitude (the sign is carried separately and never changes).  The fuel is
the first index past the `UNITS` table: once the magnitude counter reaches 6
the request fails with an out-of-range lookup no matter how often the loop
still divides (the counter only grows), so cutting the loop there (`none`)
preserves exactly the success/failure outcome and every successful result. -/
def magLoop : Nat × Int → Nat → Nat → Option ((Nat × Int) × Nat)
  | v, m, 0 => if floatGe1000 v then none else some (v, m)
  | v, m, fuel + 1 => if floatGe1000 v then magLoop (floatDiv1000 v) (m + 1) fuel else some (v, m)

/-- Left-pad with zeros to `d` characters. -/
def zeroPad (d : Nat) (s : String) : String :=
  String.mk (List.replicate (d - s.length) '0') ++ s

/-- Python `f"{v:.{d}f}"` for the double of magnitude `(k, s)` and sign
`neg`: the exact value of the double times `10^d`, rounded to the nearest
integer (ties to even), rendered with `d` decimal places. -/
def formatFloat (neg : Bool) (v : Nat × Int) (d : Nat) : String :=
  let a :=
    if 0 ≤ v.2 then v.1 * 2 ^ v.2.toNat * 10 ^ d
    else (roundHalfEvenDiv ((v.1 : Int) * 10 ^ d) (2 ^ (-v.2).toNat)).toNat
  let sign := if neg then "-" else ""
  if d = 0 then sign ++ toString a
  else sign ++ toString (a / 10 ^ d) ++ "." ++ zeroPad d (toString (a % 10 ^ d))

/-- `DirEntry.human_format` (`main.py` lines 155-167): convert to a double,
divide by `1000.0` while at least 1000 in magnitude, then render with the
unit chosen by the final magnitude — no decimals at magnitude 0, one decimal
otherwise.  `none` is the uncaught `IndexError` raised when the magnitude
leaves the six-entry table. -/
def human_format (bytes_ : Int) : Option String :=
  match magLoop (toFloatPos bytes_.natAbs 1) 0 6 with
  | none => none
  | some (v, magnitude) =>
    match UNITS.get? magnitude with
    | none => none
    | some magnitude_str =>
      if magnitude = 0 then some (formatFloat (bytes_ < 0) v 0 ++ " " ++ magnitude_str)
      else some (formatFloat (bytes_ < 0) v 1 ++ " " ++ magnitude_str)

/-- `DirEntry.from_path` (`main.py` lines 145-153).  Note line 153 builds
`path=path.name + "/"` for files and directories alike.  `none` is the
uncaught `IndexError` out of `human_format`. -/
def DirEntry.from_path (name : String) (e : Entry) : Option DirEntry :=
  match human_format (entrySize e : Int) with
  | none => none
  | some size => some (DirEntry.mk name (name ++ "/") size)

/-- `handle_dir` (`main.py` lines 170-196): summarize every child (in listing
order), read an optional `README.md` (absence tolerated, a directory of that
name makes the uncaught `IsADirectoryError` fail the request, like a size the
formatter cannot render). -/
def handle_dir (children : List (String × Entry)) (breadcrumbs : List Breadcrumb)
    (title : String) : Option Response :=
  match children.mapM (fun nc => DirEntry.from_path nc.1 nc.2) with
  | none => none
  | some dir_entries =>
    match findChild children "README.md" with
    | some (.dir _) => none
    | some (.file t _) =>
      some (.dirPage breadcrumbs title dir_entries (dir_entries.length == 0) (some t))
    | none =>
      some (.dirPage breadcrumbs title dir_entries (dir_entries.length == 0) none)

/-- The dispatch of `handle_dir`'s outcome: an uncaught exception (`none`)
surfaces as a 500 response, otherwise the rendered page is returned. -/
def dirResponse : Option Response → Except Nat Response
  | none => .error 500
  | some resp => .ok resp

/-- `str(http_path)` for the title (`main.py` line 58). -/
def pathToString (parts : List String) : String :=
  String.intercalate "/" parts

/-- The final component of a segment list (`fs_path.name`). -/
def lastName (parts : List String) : String :=
  (parts.getLast?).getD ""

/-- `serve` (`main.py` lines 46-82): title, join `DATA_PATH / http_path` (no
containment check — the line 55 `TODO`), 404 when the resolved path does not
exist, breadcrumbs, then the directory or file branch.  `world` is the
filesystem root tree, `cwd` the absolute working directory the relative
`DATA_PATH` is resolved against, `md` the Markdown collaborator.  Errors are
the HTTP status: 404 from line 64, 500 for an uncaught exception. -/
def serve (world : Entry) (cwd : List String) (md : String → String)
    (http_path : List String) (download : Bool) : Except Nat Response :=
  let title := if http_path = [] then ROOT_DIR_NAME else pathToString http_path
  let fs_path := DATA_PATH ++ http_path
  match lookup world (normalize (cwd ++ fs_path)) with
  | none => .error 404
  | some entry =>
    let breadcrumbs := generate_breadcrumbs http_path
    match entry with
    | .dir children => dirResponse (handle_dir children breadcrumbs title)
    | .file text bytes =>
      .ok (handle_file breadcrumbs download (lastName fs_path) text bytes title md)

/-- Whether segment list `p` is the root `root` or a descendant of it. -/
def isUnder (root p : List String) : Bool :=
  root.isPrefixOf p

/-- The directory-view-or-failure shape of a dispatch result: any `ok`
response is the listing view. -/
def okIsDirPage : Except Nat Response → Bool
  | .ok r => r.isDirPage
  | .error _ => true

/-- The exact rational value of a dyadic double `(k, s)`: `k * 2^s`.  Proof
device only; the executable code never leaves the integers. -/
def val (v : Nat × Int) : ℚ := (v.1 : ℚ) * 2 ^ v.2

/-- The mantissa `toFloatPos` rounds to, kept in `Int` (proof device: the two
branches of `toFloatPos` are the same `roundHalfEvenDiv` call on a pair whose
ratio is `(num/den) * 2^(52 - floorLog2 num den)`). -/
def mantissa (num den : Nat) : Int :=
  let s := floorLog2 num den - 52
  if 0 ≤ s then roundHalfEvenDiv (num : Int) ((den : Int) * 2 ^ s.toNat)
  else roundHalfEvenDiv ((num : Int) * 2 ^ (-s).toNat) (den : Int)

/- ------------------------------------------------------------------ -/
/- Theorems.                                                           -/
/- ------------------------------------------------------------------ -/

/-- C1: the code joins `DATA_PATH` with the request path and serves the
result with no containment check (the line 55 `TODO`): for the request
`../../etc/passwd` the canonical resolution is not a descendant of the root,
yet `serve` happily returns the raw bytes of `/srv/etc/passwd` instead of
failing with a `PathTraversal` error (no such error exists in the code: its
only failures are the HTTP 404 and an uncaught exception). -/
theorem c1_path_traversal_unchecked :
    isUnder (normalize (["srv", "app"] ++ DATA_PATH))
      (normalize (["srv", "app"] ++ (DATA_PATH ++ ["..", "..", "etc", "passwd"]))) = false
    ∧ serve
        (.dir [("srv", .dir
          [("etc", .dir [("passwd", .file "root:x:0:0:root" (List.replicate 30 0))]),
           ("app", .dir [("data", .dir [("notes.txt", .file "notes" [1, 2, 3])])])])])
        ["srv", "app"] id ["..", "..", "etc", "passwd"] false
      = .ok (.raw (List.replicate 30 0)) := by
  exact ⟨by decide, rfl⟩

/-- C2: `handle_file` picks the rendering from the filename suffix — the six
plain-text suffixes give the text page, `.md` the Markdown page, `.csv` the
CSV page, anything else raw bytes — and a set download flag short-circuits to
raw bytes whatever the suffix. -/
theorem c2_render_kind_by_suffix (bc : List Breadcrumb) (name text : String)
    (bytes : List Nat) (title : String) (md : String → String) :
    handle_file bc true name text bytes title md = .raw bytes
    ∧ (suffixOf name ∈ TEXT_SUFFIXES →
        handle_file bc false name text bytes title md = .textPage bc title text)
    ∧ (suffixOf name = ".md" →
        handle_file bc false name text bytes title md = .markdownPage bc title (md text))
    ∧ (suffixOf name = ".csv" →
        handle_file bc false name text bytes title md =
          .csvPage bc title ((splitLines text).map csvTokenizeLine))
    ∧ (suffixOf name ∉ TEXT_SUFFIXES → suffixOf name ≠ ".md" → suffixOf name ≠ ".csv" →
        handle_file bc false name text bytes title md = .raw bytes) := by
  refine ⟨rfl, fun h => ?_, fun h => ?_, fun h => ?_, fun h1 h2 h3 => ?_⟩
  · simp [handle_file, h]
  · have hmem : (".md" : String) ∉ TEXT_SUFFIXES := by decide
    simp [handle_file, h, hmem]
  · have hmem : (".csv" : String) ∉ TEXT_SUFFIXES := by decide
    have hmd : (".csv" : String) ≠ ".md" := by decide
    simp [handle_file, h, hmem, hmd]
  · simp [handle_file, h1, h2, h3]

/-- C2 witness: the suffix classification at the spec's own examples
(`notes.md`, `script.py`, `data.csv`, `image.png`, download on `.png`). -/
theorem c2_render_kind_by_suffix_witness :
    suffixOf "script.py" ∈ TEXT_SUFFIXES
    ∧ handle_file [] false "script.py" "print(1)" [112] "t" id = .textPage [] "t" "print(1)"
    ∧ suffixOf "notes.md" = ".md"
    ∧ handle_file [] false "notes.md" "# hi" [35] "t" id = .markdownPage [] "t" (id "# hi")
    ∧ suffixOf "data.csv" = ".csv"
    ∧ handle_file [] false "data.csv" "a,b" [97] "t" id =
        .csvPage [] "t" ((splitLines "a,b").map csvTokenizeLine)
    ∧ suffixOf "image.png" ∉ TEXT_SUFFIXES
    ∧ handle_file [] false "image.png" "" [137, 80] "t" id = .raw [137, 80]
    ∧ handle_file [] true "image.png" "" [137, 80] "t" id = .raw [137, 80] :=
  ⟨by decide,
   (c2_render_kind_by_suffix [] "script.py" "print(1)" [112] "t" id).2.1 (by decide),
   by decide,
   (c2_render_kind_by_suffix [] "notes.md" "# hi" [35] "t" id).2.2.1 (by decide),
   by decide,
   (c2_render_kind_by_suffix [] "data.csv" "a,b" [97] "t" id).2.2.2.1 (by decide),
   by decide,
   (c2_render_kind_by_suffix [] "image.png" "" [137, 80] "t" id).2.2.2.2
     (by decide) (by decide) (by decide),
   (c2_render_kind_by_suffix [] "image.png" "" [137, 80] "t" id).1⟩

/-- C4 counterexample: at 999999999999 bytes the value after three divisions
is 999.999999999, which one-decimal rounding renders as `1000.0`, so the
output is `1000.0 GB` — not the claimed `1.0 TB` (the TB unit is first
reached at 10^12). -/
theorem c4_terabyte_counterexample :
    human_format 999999999999 = some "1000.0 GB"
    ∧ human_format 999999999999 ≠ some "1.0 TB" :=
  ⟨by decide, by decide⟩

/-- C4 (amended): `human_format` divides by 1000 while the magnitude is at
least 1000, selects the unit by the number of divisions, and renders no
decimal places at magnitude 0 and one otherwise: 0 → `0 B`, 999 → `999 B`,
1000 → `1.0 KB`, 1500000 → `1.5 MB`, and 999999999999 → `1000.0 GB`. -/
theorem c4_human_format_values :
    human_format 0 = some "0 B"
    ∧ human_format 999 = some "999 B"
    ∧ human_format 1000 = some "1.0 KB"
    ∧ human_format 1500000 = some "1.5 MB"
    ∧ human_format 999999999999 = some "1000.0 GB" :=
  ⟨by decide, by decide, by decide, by decide, by decide⟩

/-- C6 counterexample: `DirEntry.from_path` builds `path.name + "/"` on line
153 for files too, so a file entry's relative link carries a trailing
separator, contradicting the claim that a file link is exactly the name. -/
theorem c6_file_link_counterexample :
    DirEntry.from_path "notes.txt" (.file "hi" [104, 105]) =
      some (DirEntry.mk "notes.txt" "notes.txt/" "2 B")
    ∧ "notes.txt/" ≠ "notes.txt" :=
  ⟨by decide, by decide⟩

/-- C6 (amended): the relative link of every summarized entry — directory or
file — is its name followed by a trailing separator. -/
theorem c6_link_always_trailing_slash (name : String) (e : Entry) (d : DirEntry)
    (h : DirEntry.from_path name e = some d) : d.path = name ++ "/" := by
  unfold DirEntry.from_path at h
  cases hf : human_format ((entrySize e : Int)) with
  | none => rw [hf] at h; cases h
  | some s => rw [hf] at h; cases h; rfl

/-- C6 witness: a directory entry and the theorem applied to it. -/
theorem c6_link_always_trailing_slash_witness :
    DirEntry.from_path "docs" (Entry.dir []) = some (DirEntry.mk "docs" "docs/" "0 B")
    ∧ (DirEntry.mk "docs" "docs/" "0 B").path = "docs" ++ "/" :=
  ⟨by decide, c6_link_always_trailing_slash "docs" (Entry.dir []) _ (by decide)⟩

/-- C7: a `.csv` file renders as the lines of the text split on newline
characters, each tokenized separately — so the quoted field `"b\nc"` in
`a,"b\nc",d` is torn across two rows instead of forming one row of three
cells. -/
theorem c7_csv_split_then_tokenize (bc : List Breadcrumb) (name text : String)
    (bytes : List Nat) (title : String) (md : String → String)
    (h : suffixOf name = ".csv") :
    handle_file bc false name text bytes title md =
      .csvPage bc title ((splitLines text).map csvTokenizeLine)
    ∧ (splitLines "a,\"b\nc\",d").map csvTokenizeLine = [["a", "b"], ["c\"", "d"]] := by
  constructor
  · have hmem : (".csv" : String) ∉ TEXT_SUFFIXES := by decide
    have hmd : (".csv" : String) ≠ ".md" := by decide
    simp [handle_file, h, hmem, hmd]
  · decide

/-- C7 witness: the theorem applied at `data.csv`. -/
theorem c7_csv_split_then_tokenize_witness :
    suffixOf "data.csv" = ".csv"
    ∧ handle_file [] false "data.csv" "x,y\n1,2" [120] "data.csv" id =
        .csvPage [] "data.csv" ((splitLines "x,y\n1,2").map csvTokenizeLine) :=
  ⟨by decide,
   (c7_csv_split_then_tokenize [] "data.csv" "x,y\n1,2" [120] "data.csv" id (by decide)).1⟩

/-- C3: `generate_breadcrumbs` on `n` segments returns `n + 1` crumbs: the
root crumb linking `/` first, then for each 0-indexed segment `i` a crumb
named by the segment whose link is `../` repeated `n - i - 1` times; the
final segment's crumb has an empty link. -/
theorem c3_breadcrumbs_structure (parts : List String) :
    (generate_breadcrumbs parts).length = parts.length + 1
    ∧ (generate_breadcrumbs parts).get? 0 = some (Breadcrumb.mk ROOT_DIR_NAME "/")
    ∧ (∀ i, i < parts.length →
        (generate_breadcrumbs parts).get? (i + 1) =
          (parts.get? i).map (fun p => Breadcrumb.mk p (strRepeat "../" (parts.length - i - 1))))
    ∧ (parts ≠ [] → ∃ last, parts.getLast? = some last ∧
        (generate_breadcrumbs parts).get? parts.length = some (Breadcrumb.mk last "")) := by
  have hget : ∀ i, i < parts.length →
      (generate_breadcrumbs parts).get? (i + 1) =
        (parts.get? i).map (fun p => Breadcrumb.mk p (strRepeat "../" (parts.length - i - 1))) := by
    intro i hi
    show (parts.enum.map _).get? i = _
    rw [List.get?_map, List.get?_enum]
    cases hp : parts.get? i with
    | none => rfl
    | some p => rfl
  refine ⟨by simp [generate_breadcrumbs, List.enum_length], rfl, hget, fun hne => ?_⟩
  have hlen : 0 < parts.length := List.length_pos.mpr hne
  have hlast := List.getLast?_eq_get? parts
  cases hp : parts.get? (parts.length - 1) with
  | none =>
    exact absurd (List.get?_eq_none.mp hp) (by omega)
  | some last =>
    refine ⟨last, by rw [hlast, hp], ?_⟩
    have := hget (parts.length - 1) (by omega)
    rw [hp] at this
    have harith : parts.length - 1 + 1 = parts.length := by omega
    have hzero : parts.length - (parts.length - 1) - 1 = 0 := by omega
    rw [harith, hzero] at this
    simpa [strRepeat] using this

/-- C3 witness: the theorem applied to a two-segment request path. -/
theorem c3_breadcrumbs_structure_witness :
    (generate_breadcrumbs ["a", "b"]).length = 2 + 1
    ∧ (0 : Nat) < 2
    ∧ (generate_breadcrumbs ["a", "b"]).get? (0 + 1) =
        (["a", "b"].get? 0).map (fun p => Breadcrumb.mk p (strRepeat "../" (2 - 0 - 1)))
    ∧ (∃ last, ["a", "b"].getLast? = some last ∧
        (generate_breadcrumbs ["a", "b"]).get? 2 = some (Breadcrumb.mk last "")) :=
  ⟨(c3_breadcrumbs_structure ["a", "b"]).1, by decide,
   (c3_breadcrumbs_structure ["a", "b"]).2.2.1 0 (by decide),
   (c3_breadcrumbs_structure ["a", "b"]).2.2.2 (by decide)⟩

/-- The head contribution of one child to `glob("*/*")`. -/
theorem glob_children_cons (nc : String × Entry) (t : List (String × Entry)) :
    glob_children (nc :: t) =
      (match nc.2 with
        | .dir gcs => gcs.map Prod.snd
        | .file _ _ => []) ++ glob_children t := by
  simp [glob_children]

/-- Summing `st_size` over the file entries among a directory's children is
summing the byte lengths of its file children. -/
theorem filter_file_sum (gcs : List (String × Entry)) :
    (((gcs.map Prod.snd).filter is_file).map st_size).sum =
      (gcs.map (fun g =>
        match g.2 with
        | .file _ bs => bs.length
        | .dir _ => 0)).sum := by
  induction gcs with
  | nil => rfl
  | cons g t ih =>
    rcases g with ⟨n, c⟩
    cases c with
    | file tx bs => simpa [is_file, st_size] using ih
    | dir cs => simpa [is_file] using ih

/-- C5: the size `DirEntry.from_path` computes for a directory is the sum of
the byte lengths of exactly the grandchildren files — the `glob("*/*")`
pattern reaches one level inside each immediate child directory and nothing
else; in the example, `D/A/f` (10 bytes) is counted while `D/g` (5 bytes,
directly inside `D`) and `D/A/B/h` (7 bytes, three levels down) are not. -/
theorem c5_dir_size_grandchildren :
    (∀ cs : List (String × Entry), entrySize (.dir cs) = grandchildrenFilesSum cs)
    ∧ entrySize (.dir [("A", .dir [("f", .file "ten" (List.replicate 10 0)),
          ("B", .dir [("h", .file "seven" (List.replicate 7 0))])]),
        ("g", .file "five" (List.replicate 5 0))]) = 10 := by
  constructor
  · intro cs
    induction cs with
    | nil => rfl
    | cons nc t ih =>
      rcases nc with ⟨n, c⟩
      have hsum : entrySize (.dir ((n, c) :: t)) =
          (((match c with
              | .dir gcs => gcs.map Prod.snd
              | .file _ _ => ([] : List Entry)).filter is_file).map st_size).sum
            + entrySize (.dir t) := by
        simp [entrySize, glob_children_cons, List.filter_append, List.sum_append]
      rw [hsum, ih]
      cases c with
      | file tx bs => simp [grandchildrenFilesSum]
      | dir gcs =>
        simp [grandchildrenFilesSum, filter_file_sum]
  · decide

/-- C8: when the resolved filesystem path does not exist, `serve` fails with
the 404 error before breadcrumbs are built and without emitting any payload:
its result is exactly `Except.error 404`. -/
theorem c8_not_found_404 (world : Entry) (cwd : List String) (md : String → String)
    (http_path : List String) (download : Bool)
    (h : lookup world (normalize (cwd ++ (DATA_PATH ++ http_path))) = none) :
    serve world cwd md http_path download = Except.error 404 := by
  simp only [serve]
  rw [h]

/-- C8 witness: a request for a missing file under an empty root. -/
theorem c8_not_found_404_witness :
    lookup (Entry.dir [("data", Entry.dir [])])
      (normalize ([] ++ (DATA_PATH ++ ["missing.txt"]))) = none
    ∧ serve (Entry.dir [("data", Entry.dir [])]) [] id ["missing.txt"] false =
        Except.error 404 :=
  ⟨by rfl, c8_not_found_404 (Entry.dir [("data", Entry.dir [])]) [] id
    ["missing.txt"] false (by rfl)⟩

/-- `handle_dir` only ever renders the directory-listing page. -/
theorem handle_dir_isDirPage (children : List (String × Entry)) (bc : List Breadcrumb)
    (title : String) (r : Response) (h : handle_dir children bc title = some r) :
    r.isDirPage = true := by
  unfold handle_dir at h
  cases hm : children.mapM (fun nc => DirEntry.from_path nc.1 nc.2) with
  | none => rw [hm] at h; cases h
  | some entries =>
    rw [hm] at h
    cases hf : findChild children "README.md" with
    | none => rw [hf] at h; cases h; rfl
    | some e =>
      rw [hf] at h
      cases e with
      | dir cs => cases h
      | file t b => cases h; rfl

/-- Dispatching a directory branch never yields a non-listing response. -/
theorem okIsDirPage_dirResponse (o : Option Response)
    (h : ∀ r, o = some r → r.isDirPage = true) : okIsDirPage (dirResponse o) = true := by
  cases o with
  | none => rfl
  | some r => simpa [dirResponse, okIsDirPage] using h r rfl

/-- C9: when the resolved path is an existing directory the download flag is
never consulted — the dispatch result is identical with and without it — and
whatever response is produced is the directory-listing view (the flag only
influences rendering in the file branch). -/
theorem c9_dir_listing_ignores_download (world : Entry) (cwd : List String)
    (md : String → String) (http_path : List String) (children : List (String × Entry))
    (h : lookup world (normalize (cwd ++ (DATA_PATH ++ http_path))) = some (.dir children)) :
    serve world cwd md http_path true = serve world cwd md http_path false
    ∧ okIsDirPage (serve world cwd md http_path false) = true := by
  constructor
  · simp only [serve]
    rw [h]
  · simp only [serve]
    rw [h]
    exact okIsDirPage_dirResponse _ (fun r hr => handle_dir_isDirPage _ _ _ _ hr)

/-- C9 witness: the theorem applied to a one-subdirectory data root. -/
theorem c9_dir_listing_ignores_download_witness :
    lookup (Entry.dir [("data", Entry.dir [("sub", Entry.dir [])])])
      (normalize ([] ++ (DATA_PATH ++ ["sub"]))) = some (Entry.dir [])
    ∧ serve (Entry.dir [("data", Entry.dir [("sub", Entry.dir [])])]) [] id ["sub"] true =
        serve (Entry.dir [("data", Entry.dir [("sub", Entry.dir [])])]) [] id ["sub"] false
    ∧ okIsDirPage
        (serve (Entry.dir [("data", Entry.dir [("sub", Entry.dir [])])]) [] id ["sub"] false)
      = true :=
  ⟨by rfl,
   (c9_dir_listing_ignores_download (Entry.dir [("data", Entry.dir [("sub", Entry.dir [])])])
      [] id ["sub"] [] (by rfl)).1,
   (c9_dir_listing_ignores_download (Entry.dir [("data", Entry.dir [("sub", Entry.dir [])])])
      [] id ["sub"] [] (by rfl)).2⟩

/- Lemmas about the binary64 model, building to the index-range claim. -/

/-- With enough fuel, `bitsAux` brackets its argument between consecutive
powers of two. -/
theorem bitsAux_bounds : ∀ fuel : Nat, ∀ n : Nat, n ≤ fuel → 1 ≤ n →
    2 ^ (bitsAux fuel n - 1) ≤ n ∧ n < 2 ^ bitsAux fuel n := by
  intro fuel
  induction fuel with
  | zero => intro n h h1; omega
  | succ f ih =>
    intro n hle h1
    simp only [bitsAux, if_neg (by omega : ¬ n = 0)]
    by_cases h2 : n = 1
    · subst h2
      have : bitsAux f (1 / 2) = 0 := by cases f <;> simp [bitsAux]
      rw [this]
      omega
    · have hn2 : 1 ≤ n / 2 := by omega
      have hf : n / 2 ≤ f := by omega
      obtain ⟨lo, hi⟩ := ih (n / 2) hf hn2
      have hb1 : 1 ≤ bitsAux f (n / 2) := by
        by_contra hb
        have hb0 : bitsAux f (n / 2) = 0 := by omega
        rw [hb0] at hi
        omega
      constructor
      · have : 2 ^ (bitsAux f (n / 2) + 1 - 1) = 2 * 2 ^ (bitsAux f (n / 2) - 1) := by
          rw [Nat.add_sub_cancel, ← pow_succ']
          congr 1
          omega
        rw [this]
        omega
      · have : 2 ^ (bitsAux f (n / 2) + 1) = 2 * 2 ^ bitsAux f (n / 2) := by
          rw [pow_succ']
        rw [this]
        omega

/-- `bits` brackets a positive natural between consecutive powers of two. -/
theorem bits_bounds (n : Nat) (h : 1 ≤ n) :
    2 ^ (bits n - 1) ≤ n ∧ n < 2 ^ bits n :=
  bitsAux_bounds n n le_rfl h

/-- A positive natural has at least one binary digit. -/
theorem bits_pos (n : Nat) (h : 1 ≤ n) : 1 ≤ bits n := by
  obtain ⟨_, hi⟩ := bits_bounds n h
  by_contra hb
  have : bits n = 0 := by omega
  rw [this] at hi
  omega

/-- `qLtPow2` decides the rational comparison it cross-multiplies. -/
theorem qLtPow2_iff (num den : Nat) (hd : 0 < den) (e : Int) :
    qLtPow2 num den e = true ↔ (num : ℚ) / den < 2 ^ e := by
  have hden : (0 : ℚ) < den := by exact_mod_cast hd
  unfold qLtPow2
  by_cases he : 0 ≤ e
  · rw [if_pos he, decide_eq_true_eq]
    have h2 : (2 : ℚ) ^ e = ((2 ^ e.toNat : ℕ) : ℚ) := by
      rw [← Int.toNat_of_nonneg he, zpow_natCast]
      push_cast
      rw [Int.toNat_of_nonneg he]
    rw [h2, div_lt_iff hden]
    constructor
    · intro h; exact_mod_cast h
    · intro h; exact_mod_cast h
  · rw [if_neg he, decide_eq_true_eq]
    have hm : e = -(((-e).toNat : ℕ) : Int) := by omega
    have h2 : (2 : ℚ) ^ e = ((2 ^ (-e).toNat : ℕ) : ℚ)⁻¹ := by
      calc (2:ℚ) ^ e = (2:ℚ) ^ (-(((-e).toNat : ℕ) : Int)) := by rw [← hm]
        _ = ((2:ℚ) ^ (((-e).toNat : ℕ) : Int))⁻¹ := by rw [zpow_neg]
        _ = ((2:ℚ) ^ ((-e).toNat : ℕ))⁻¹ := by rw [zpow_natCast]
        _ = ((2 ^ (-e).toNat : ℕ) : ℚ)⁻¹ := by push_cast; rfl
    have hp : (0 : ℚ) < ((2 ^ (-e).toNat : ℕ) : ℚ) := by positivity
    rw [h2, inv_eq_one_div, div_lt_div_iff hden hp, one_mul]
    constructor
    · intro h; exact_mod_cast h
    · intro h; exact_mod_cast h

/-- `floorLog2` brackets the positive rational `num / den` between
consecutive integer powers of two. -/
theorem floorLog2_bounds (num den : Nat) (hn : 1 ≤ num) (hd : 1 ≤ den) :
    (2:ℚ) ^ floorLog2 num den ≤ (num : ℚ) / den
    ∧ (num : ℚ) / den < 2 ^ (floorLog2 num den + 1) := by
  obtain ⟨nlo, nhi⟩ := bits_bounds num hn
  obtain ⟨dlo, dhi⟩ := bits_bounds den hd
  have hdq : (0:ℚ) < den := by exact_mod_cast hd
  have pow_nat : ∀ t : ℕ, ((2 ^ t : ℕ) : ℚ) = (2:ℚ) ^ (t : ℤ) := by
    intro t; rw [zpow_natCast]; push_cast; rfl
  have hq_hi : (num : ℚ) / den < 2 ^ ((bits num : Int) - (bits den : Int) + 1) := by
    have h1 : (num:ℚ) / den < ((2 ^ bits num : ℕ):ℚ) / ((2 ^ (bits den - 1) : ℕ):ℚ) := by
      apply div_lt_div (by exact_mod_cast nhi) (by exact_mod_cast dlo) (by positivity)
        (by positivity)
    calc (num:ℚ)/den < ((2 ^ bits num : ℕ):ℚ) / ((2 ^ (bits den - 1) : ℕ):ℚ) := h1
      _ = (2:ℚ) ^ ((bits num : ℕ) : Int) / (2:ℚ) ^ (((bits den - 1 : ℕ)) : Int) := by
          rw [pow_nat, pow_nat]
      _ = (2:ℚ) ^ (((bits num : ℕ) : Int) - ((bits den - 1 : ℕ) : Int)) := by
          rw [← zpow_sub₀ (by norm_num : (2:ℚ) ≠ 0)]
      _ = (2:ℚ) ^ ((bits num : Int) - (bits den : Int) + 1) := by
          congr 1
          have := bits_pos den hd
          omega
  have hq_lo : (2:ℚ) ^ ((bits num : Int) - (bits den : Int) - 1) ≤ (num : ℚ) / den := by
    have h1 : ((2 ^ (bits num - 1) : ℕ):ℚ) / ((2 ^ bits den : ℕ):ℚ) ≤ (num:ℚ) / den := by
      apply div_le_div (by positivity) (by exact_mod_cast nlo) hdq
        (by exact_mod_cast (le_of_lt dhi))
    calc (2:ℚ) ^ ((bits num : Int) - (bits den : Int) - 1)
        = (2:ℚ) ^ (((bits num - 1 : ℕ) : Int) - ((bits den : ℕ) : Int)) := by
          congr 1
          have := bits_pos num hn
          omega
      _ = (2:ℚ) ^ (((bits num - 1 : ℕ)) : Int) / (2:ℚ) ^ ((bits den : ℕ) : Int) := by
          rw [zpow_sub₀ (by norm_num : (2:ℚ) ≠ 0)]
      _ = ((2 ^ (bits num - 1) : ℕ):ℚ) / ((2 ^ bits den : ℕ):ℚ) := by rw [pow_nat, pow_nat]
      _ ≤ (num:ℚ)/den := h1
  simp only [floorLog2]
  by_cases h : qLtPow2 num den ((bits num : Int) - (bits den : Int)) = true
  · rw [if_pos h]
    have hlt := (qLtPow2_iff num den (by omega) _).mp h
    refine ⟨hq_lo, ?_⟩
    have harith : (bits num : Int) - (bits den : Int) - 1 + 1
        = (bits num : Int) - (bits den : Int) := by ring
    rw [harith]
    exact hlt
  · rw [if_neg h]
    have hge : ¬ ((num:ℚ)/den < 2 ^ ((bits num : Int) - (bits den : Int))) := by
      intro hc
      exact h ((qLtPow2_iff num den (by omega) _).mpr hc)
    exact ⟨not_lt.mp hge, hq_hi⟩

/-- The floor quotient brackets the dividend (positive divisor). -/
theorem rhe_floor_bounds (num den : Int) (hd : 0 < den) :
    Int.fdiv num den * den ≤ num ∧ num < (Int.fdiv num den + 1) * den := by
  rw [Int.fdiv_eq_ediv _ (le_of_lt hd)]
  constructor
  · exact (Int.le_ediv_iff_mul_le hd).mp le_rfl
  · exact Int.lt_ediv_add_one_mul_self num hd

/-- `roundHalfEvenDiv` is the floor or the floor plus one. -/
theorem rhe_mem (num den : Int) :
    roundHalfEvenDiv num den = Int.fdiv num den
    ∨ roundHalfEvenDiv num den = Int.fdiv num den + 1 := by
  simp only [roundHalfEvenDiv]
  split_ifs <;> simp

/-- `roundHalfEvenDiv` of a nonnegative dividend is nonnegative. -/
theorem rhe_nonneg (num den : Int) (h : 0 ≤ num) (hd : 0 < den) :
    0 ≤ roundHalfEvenDiv num den := by
  have hf : 0 ≤ Int.fdiv num den := Int.fdiv_nonneg h (le_of_lt hd)
  rcases rhe_mem num den with h1 | h1 <;> omega

/-- The characterization of rounding to nearest, ties to even: the result is
within half a unit, and a tie on either side forces an even result. -/
theorem rhe_char (num den : Int) (hd : 0 < den) :
    (2 * roundHalfEvenDiv num den - 1) * den ≤ 2 * num
    ∧ 2 * num ≤ (2 * roundHalfEvenDiv num den + 1) * den
    ∧ (2 * num = (2 * roundHalfEvenDiv num den + 1) * den → roundHalfEvenDiv num den % 2 = 0)
    ∧ (2 * num = (2 * roundHalfEvenDiv num den - 1) * den →
        roundHalfEvenDiv num den % 2 = 0) := by
  obtain ⟨h1, h2⟩ := rhe_floor_bounds num den hd
  simp only [roundHalfEvenDiv]
  split_ifs with ha hb hc
  · exact ⟨by nlinarith, by nlinarith, fun heq => absurd heq (by nlinarith),
      fun heq => absurd heq (by nlinarith)⟩
  · exact ⟨by nlinarith, by nlinarith, fun heq => absurd heq (by nlinarith),
      fun heq => absurd heq (by nlinarith)⟩
  · exact ⟨by nlinarith, by nlinarith, fun _ => hc,
      fun heq => absurd heq (by nlinarith)⟩
  · exact ⟨by nlinarith, by nlinarith, fun heq => absurd heq (by nlinarith),
      fun _ => by omega⟩

/-- Rounding to nearest (ties to even) is monotone in the rational value. -/
theorem rhe_mono (num den num' den' : Int) (hd : 0 < den) (hd' : 0 < den')
    (h : num * den' ≤ num' * den) :
    roundHalfEvenDiv num den ≤ roundHalfEvenDiv num' den' := by
  obtain ⟨lo, hi, _, tiel⟩ := rhe_char num den hd
  obtain ⟨lo', hi', tieh', _⟩ := rhe_char num' den' hd'
  set z := roundHalfEvenDiv num den with hz
  set z' := roundHalfEvenDiv num' den' with hz'
  by_contra hcon
  push_neg at hcon
  have hzz : 2 * z' + 1 ≤ 2 * z - 1 := by omega
  have k1 : (2*z - 1) * den * den' ≤ 2 * num * den' := by nlinarith
  have k2 : 2 * num * den' ≤ 2 * num' * den := by nlinarith
  have k3 : 2 * num' * den ≤ (2*z' + 1) * den' * den := by nlinarith
  have k4 : (2*z' + 1) * den' * den ≤ (2*z - 1) * den * den' := by
    have hp : (0:ℤ) ≤ den' * den := le_of_lt (mul_pos hd' hd)
    nlinarith [mul_le_mul_of_nonneg_right hzz hp]
  have e1 : (2*z - 1) * den * den' = 2 * num * den' := le_antisymm k1 (by linarith)
  have e3 : 2 * num' * den = (2*z' + 1) * den' * den := le_antisymm k3 (by linarith)
  have ezz : 2*z' + 1 = 2*z - 1 := by
    have heq : ((2*z' + 1) * den') * den = ((2*z - 1) * den') * den := by
      nlinarith [e1, e3, k2, k4]
    have := mul_right_cancel₀ (ne_of_gt hd) heq
    exact mul_right_cancel₀ (ne_of_gt hd') this
  have tz : 2 * num = (2*z - 1) * den :=
    mul_right_cancel₀ (ne_of_gt hd')
      (by linarith [e1] : (2 * num) * den' = ((2*z - 1) * den) * den')
  have tz' : 2 * num' = (2*z' + 1) * den' :=
    mul_right_cancel₀ (ne_of_gt hd)
      (by linarith [e3] : (2 * num') * den = ((2*z' + 1) * den') * den)
  have hze := tiel tz
  have hze' := tieh' tz'
  omega

/-- The half-unit bracket of `roundHalfEvenDiv`, in the rationals. -/
theorem rhe_q_bounds (N D : Int) (hD : 0 < D) :
    ((N : ℚ) / D) - 1/2 ≤ (roundHalfEvenDiv N D : ℚ)
    ∧ (roundHalfEvenDiv N D : ℚ) ≤ ((N : ℚ) / D) + 1/2 := by
  obtain ⟨lo, hi, _, _⟩ := rhe_char N D hD
  have hDq : (0:ℚ) < (D:ℚ) := by exact_mod_cast hD
  have lo' : ((2 * roundHalfEvenDiv N D - 1 : Int) : ℚ) * D ≤ 2 * N := by exact_mod_cast lo
  have hi' : (2 * N : ℚ) ≤ ((2 * roundHalfEvenDiv N D + 1 : Int) : ℚ) * D := by
    exact_mod_cast hi
  push_cast at lo' hi'
  have hxD : (N:ℚ)/D * D = N := div_mul_cancel₀ _ (ne_of_gt hDq)
  constructor
  · nlinarith [hi', hDq, hxD]
  · nlinarith [lo', hDq, hxD]

/-- An integer at most a half above another integer is at most it. -/
theorem int_le_of_rat_half (a b : Int) (h : (a:ℚ) ≤ (b:ℚ) + 1/2) : a ≤ b := by
  by_contra hc
  push_neg at hc
  have hc' : b + 1 ≤ a := hc
  have : ((b:ℚ) + 1) ≤ (a:ℚ) := by exact_mod_cast hc'
  linarith

/-- An integer at most a half below another integer is at least it. -/
theorem int_ge_of_rat_half (a b : Int) (h : (b:ℚ) - 1/2 ≤ (a:ℚ)) : b ≤ a := by
  by_contra hc
  push_neg at hc
  have hc' : a + 1 ≤ b := hc
  have : ((a:ℚ) + 1) ≤ (b:ℚ) := by exact_mod_cast hc'
  linarith

/-- `toFloatPos` on a zero numerator is the zero double. -/
theorem toFloatPos_zero (den : Nat) : toFloatPos 0 den = (0, 0) := by
  simp [toFloatPos]

/-- Dyadic doubles have nonnegative value. -/
theorem val_nonneg (v : Nat × Int) : 0 ≤ val v := by
  unfold val
  positivity

/-- The mantissa `toFloatPos` stores is nonnegative. -/
theorem mantissa_nonneg (num den : Nat) (hd : 0 < den) : 0 ≤ mantissa num den := by
  simp only [mantissa]
  by_cases hs : 0 ≤ floorLog2 num den - 52
  · rw [if_pos hs]
    exact rhe_nonneg _ _ (by positivity) (by positivity)
  · rw [if_neg hs]
    exact rhe_nonneg _ _ (by positivity) (by exact_mod_cast hd)

/-- `toFloatPos` of a positive numerator is the `mantissa` with the scaling
exponent. -/
theorem toFloatPos_eq_mantissa (num den : Nat) (hn : num ≠ 0) :
    toFloatPos num den = ((mantissa num den).toNat, floorLog2 num den - 52) := by
  simp only [toFloatPos, mantissa]
  rw [if_neg hn]
  by_cases hs : 0 ≤ floorLog2 num den - 52
  · rw [if_pos hs, if_pos hs]
  · rw [if_neg hs, if_neg hs]

/-- The mantissa is within a half of the scaled exact value. -/
theorem mantissa_q_bounds (num den : Nat) (_hn : 0 < num) (hd : 0 < den) :
    ((num:ℚ)/den) * 2 ^ ((52 : Int) - floorLog2 num den) - 1/2 ≤ (mantissa num den : ℚ)
    ∧ (mantissa num den : ℚ) ≤ ((num:ℚ)/den) * 2 ^ ((52 : Int) - floorLog2 num den) + 1/2 := by
  simp only [mantissa]
  by_cases hs : 0 ≤ floorLog2 num den - 52
  · rw [if_pos hs]
    have hD : (0:ℤ) < (den : Int) * 2 ^ (floorLog2 num den - 52).toNat := by positivity
    obtain ⟨b1, b2⟩ := rhe_q_bounds (num : Int) ((den : Int) * 2 ^ (floorLog2 num den - 52).toNat) hD
    have hx : (((num : Nat) : Int) : ℚ) / (((den : Int) * 2 ^ (floorLog2 num den - 52).toNat : Int) : ℚ)
        = ((num:ℚ)/den) * 2 ^ ((52 : Int) - floorLog2 num den) := by
      have he : (52 : Int) - floorLog2 num den = -(((floorLog2 num den - 52).toNat : ℕ) : Int) := by
        omega
      rw [he, zpow_neg, zpow_natCast, ← div_eq_mul_inv]
      push_cast
      rw [div_mul_eq_div_div]
    rw [hx] at b1 b2
    exact ⟨b1, b2⟩
  · rw [if_neg hs]
    have hD : (0:ℤ) < (den : Int) := by exact_mod_cast hd
    obtain ⟨b1, b2⟩ := rhe_q_bounds ((num : Int) * 2 ^ (-(floorLog2 num den - 52)).toNat) (den : Int) hD
    have hx : (((num : Int) * 2 ^ (-(floorLog2 num den - 52)).toNat : Int) : ℚ) / (((den : Nat) : Int) : ℚ)
        = ((num:ℚ)/den) * 2 ^ ((52 : Int) - floorLog2 num den) := by
      have he : (52 : Int) - floorLog2 num den = (((-(floorLog2 num den - 52)).toNat : ℕ) : Int) := by
        omega
      rw [he, zpow_natCast]
      push_cast
      ring
    rw [hx] at b1 b2
    exact ⟨b1, b2⟩

/-- The mantissa stays in `[2^52, 2^53]`, so the value of `toFloatPos` stays
between the bracketing powers of two of its input. -/
theorem val_toFloatPos_bounds (num den : Nat) (hn : 0 < num) (hd : 0 < den) :
    (2:ℚ) ^ floorLog2 num den ≤ val (toFloatPos num den)
    ∧ val (toFloatPos num den) ≤ 2 ^ (floorLog2 num den + 1) := by
  obtain ⟨qlo, qhi⟩ := floorLog2_bounds num den hn hd
  obtain ⟨mlo, mhi⟩ := mantissa_q_bounds num den hn hd
  have hm0 := mantissa_nonneg num den hd
  rw [toFloatPos_eq_mantissa num den (by omega)]
  have hcast : (((mantissa num den).toNat : ℕ) : ℚ) = (mantissa num den : ℚ) := by
    have h1 : (((mantissa num den).toNat : ℕ) : Int) = mantissa num den :=
      Int.toNat_of_nonneg hm0
    exact_mod_cast congrArg (fun z : Int => (z : ℚ)) h1
  have hvm : val ((mantissa num den).toNat, floorLog2 num den - 52)
      = (mantissa num den : ℚ) * 2 ^ (floorLog2 num den - 52) := by
    unfold val
    rw [hcast]
  rw [hvm]
  have hx_lo : (2:ℚ) ^ ((52:Nat) : Int) ≤ ((num:ℚ)/den) * 2 ^ ((52 : Int) - floorLog2 num den) := by
    calc (2:ℚ) ^ ((52:Nat) : Int)
        = 2 ^ floorLog2 num den * 2 ^ ((52 : Int) - floorLog2 num den) := by
          rw [← zpow_add₀ (by norm_num : (2:ℚ) ≠ 0)]
          congr 1
          ring
      _ ≤ ((num:ℚ)/den) * 2 ^ ((52 : Int) - floorLog2 num den) :=
          mul_le_mul_of_nonneg_right qlo (le_of_lt (zpow_pos (by norm_num) _))
  have hx_hi : ((num:ℚ)/den) * 2 ^ ((52 : Int) - floorLog2 num den) < (2:ℚ) ^ ((53:Nat) : Int) := by
    calc ((num:ℚ)/den) * 2 ^ ((52 : Int) - floorLog2 num den)
        < 2 ^ (floorLog2 num den + 1) * 2 ^ ((52 : Int) - floorLog2 num den) :=
          mul_lt_mul_of_pos_right qhi (zpow_pos (by norm_num) _)
      _ = (2:ℚ) ^ ((53:Nat) : Int) := by
          rw [← zpow_add₀ (by norm_num : (2:ℚ) ≠ 0)]
          congr 1
          ring
  have c52 : (2:ℚ) ^ ((52:Nat) : Int) = (((2:Int) ^ (52:Nat) : Int) : ℚ) := by
    rw [zpow_natCast]
    push_cast
    rfl
  have c53 : (2:ℚ) ^ ((53:Nat) : Int) = (((2:Int) ^ (53:Nat) : Int) : ℚ) := by
    rw [zpow_natCast]
    push_cast
    rfl
  have hk_lo : (2:Int) ^ (52:Nat) ≤ mantissa num den := by
    apply int_ge_of_rat_half
    rw [← c52]
    linarith
  have hk_hi : mantissa num den ≤ (2:Int) ^ (53:Nat) := by
    apply int_le_of_rat_half
    rw [← c53]
    linarith
  have hk_lo' : (2:ℚ) ^ ((52:Nat) : Int) ≤ (mantissa num den : ℚ) := by
    rw [c52]; exact_mod_cast hk_lo
  have hk_hi' : (mantissa num den : ℚ) ≤ (2:ℚ) ^ ((53:Nat) : Int) := by
    rw [c53]; exact_mod_cast hk_hi
  have hppos : (0:ℚ) < 2 ^ (floorLog2 num den - 52) := zpow_pos (by norm_num) _
  constructor
  · calc (2:ℚ) ^ floorLog2 num den
        = 2 ^ ((52:Nat) : Int) * 2 ^ (floorLog2 num den - 52) := by
          rw [← zpow_add₀ (by norm_num : (2:ℚ) ≠ 0)]
          congr 1
          push_cast
          ring
      _ ≤ (mantissa num den : ℚ) * 2 ^ (floorLog2 num den - 52) :=
          mul_le_mul_of_nonneg_right hk_lo' (le_of_lt hppos)
  · calc (mantissa num den : ℚ) * 2 ^ (floorLog2 num den - 52)
        ≤ 2 ^ ((53:Nat) : Int) * 2 ^ (floorLog2 num den - 52) :=
          mul_le_mul_of_nonneg_right hk_hi' (le_of_lt hppos)
      _ = 2 ^ (floorLog2 num den + 1) := by
          rw [← zpow_add₀ (by norm_num : (2:ℚ) ≠ 0)]
          congr 1
          push_cast
          ring

/-- Casting a natural power of two across a nonnegative integer exponent. -/
theorem q_pow_toNat (s : Int) (hs : 0 ≤ s) : ((2 ^ s.toNat : ℕ) : ℚ) = (2:ℚ) ^ s := by
  calc ((2 ^ s.toNat : ℕ) : ℚ) = (2:ℚ) ^ (s.toNat : ℕ) := by push_cast; rfl
    _ = (2:ℚ) ^ ((s.toNat : ℕ) : Int) := by rw [zpow_natCast]
    _ = (2:ℚ) ^ s := by rw [Int.toNat_of_nonneg hs]

/-- The natural-power form of a nonnegative integer exponent. -/
theorem q_pow_toNat' (s : Int) (hs : 0 ≤ s) : (2:ℚ) ^ (s.toNat : ℕ) = (2:ℚ) ^ s := by
  rw [← zpow_natCast (2:ℚ) s.toNat, Int.toNat_of_nonneg hs]

/-- The natural-power form of a negated negative integer exponent. -/
theorem q_pow_toNat_neg' (s : Int) (hs : ¬ 0 ≤ s) :
    (2:ℚ) ^ ((-s).toNat : ℕ) = ((2:ℚ) ^ s)⁻¹ := by
  rw [← zpow_natCast (2:ℚ) (-s).toNat, ← zpow_neg]
  congr 1
  omega

/-- Casting a natural power of two across a negative integer exponent. -/
theorem q_pow_toNat_neg (s : Int) (hs : ¬ 0 ≤ s) :
    ((2 ^ (-s).toNat : ℕ) : ℚ) = ((2:ℚ) ^ s)⁻¹ := by
  calc ((2 ^ (-s).toNat : ℕ) : ℚ) = (2:ℚ) ^ ((-s).toNat : ℕ) := by push_cast; rfl
    _ = (2:ℚ) ^ (((-s).toNat : ℕ) : Int) := by rw [zpow_natCast]
    _ = (2:ℚ) ^ (-s) := by congr 1; omega
    _ = ((2:ℚ) ^ s)⁻¹ := by rw [zpow_neg]

/-- Rounding to a double is monotone in the exact nonnegative value. -/
theorem toFloatPos_mono (num den num' den' : Nat) (hd : 0 < den) (hd' : 0 < den')
    (h : (num : ℚ) / den ≤ (num' : ℚ) / den') :
    val (toFloatPos num den) ≤ val (toFloatPos num' den') := by
  rcases Nat.eq_zero_or_pos num with hz | hn
  · subst hz
    rw [toFloatPos_zero]
    calc val (0, 0) = 0 := by simp [val]
      _ ≤ val (toFloatPos num' den') := val_nonneg _
  rcases Nat.eq_zero_or_pos num' with hz' | hn'
  · exfalso
    subst hz'
    have h0 : (0:ℚ) < (num:ℚ)/den := by positivity
    simp only [Nat.cast_zero, zero_div] at h
    linarith
  have e_le : floorLog2 num den ≤ floorLog2 num' den' := by
    by_contra hc
    push_neg at hc
    obtain ⟨lo, _⟩ := floorLog2_bounds num den hn hd
    obtain ⟨_, hi'⟩ := floorLog2_bounds num' den' hn' hd'
    have hle : (2:ℚ) ^ (floorLog2 num' den' + 1) ≤ 2 ^ floorLog2 num den := by
      apply zpow_le_zpow_right₀ (by norm_num : (1:ℚ) ≤ 2)
      omega
    linarith
  rcases eq_or_lt_of_le e_le with heq | hlt
  · have hcross : (num : Int) * den' ≤ (num' : Int) * den := by
      have hq := (div_le_div_iff (by positivity : (0:ℚ) < (den:ℚ))
        (by positivity : (0:ℚ) < (den':ℚ))).mp h
      exact_mod_cast hq
    have hmm : mantissa num den ≤ mantissa num' den' := by
      simp only [mantissa]
      rw [← heq]
      by_cases hs : 0 ≤ floorLog2 num den - 52
      · rw [if_pos hs, if_pos hs]
        apply rhe_mono _ _ _ _ (by positivity) (by positivity)
        have hp : (0:Int) ≤ 2 ^ (floorLog2 num den - 52).toNat := by positivity
        nlinarith [mul_le_mul_of_nonneg_right hcross hp]
      · rw [if_neg hs, if_neg hs]
        apply rhe_mono _ _ _ _ (by exact_mod_cast hd) (by exact_mod_cast hd')
        have hp : (0:Int) ≤ 2 ^ (-(floorLog2 num den - 52)).toNat := by positivity
        nlinarith [mul_le_mul_of_nonneg_right hcross hp]
    rw [toFloatPos_eq_mantissa num den (by omega), toFloatPos_eq_mantissa num' den' (by omega)]
    unfold val
    dsimp only
    rw [← heq]
    apply mul_le_mul_of_nonneg_right _ (le_of_lt (zpow_pos (by norm_num) _))
    have htn : (mantissa num den).toNat ≤ (mantissa num' den').toNat :=
      Int.toNat_le_toNat hmm
    exact_mod_cast htn
  · obtain ⟨_, hub⟩ := val_toFloatPos_bounds num den hn hd
    obtain ⟨hlb, _⟩ := val_toFloatPos_bounds num' den' hn' hd'
    have hmid : (2:ℚ) ^ (floorLog2 num den + 1) ≤ 2 ^ floorLog2 num' den' := by
      apply zpow_le_zpow_right₀ (by norm_num : (1:ℚ) ≤ 2)
      omega
    linarith

/-- The loop guard holds exactly when the double's value is at least 1000. -/
theorem floatGe1000_iff (v : Nat × Int) : floatGe1000 v = true ↔ (1000:ℚ) ≤ val v := by
  rcases v with ⟨k, s⟩
  unfold floatGe1000 val
  dsimp only
  by_cases hs : 0 ≤ s
  · rw [if_pos hs, decide_eq_true_eq]
    have h2 : (k:ℚ) * 2 ^ s = ((k * 2 ^ s.toNat : ℕ) : ℚ) := by
      push_cast
      rw [q_pow_toNat' s hs]
    rw [h2]
    exact ⟨fun hh => by exact_mod_cast hh, fun hh => by exact_mod_cast hh⟩
  · rw [if_neg hs, decide_eq_true_eq]
    have hp : (0:ℚ) < ((2 ^ (-s).toNat : ℕ) : ℚ) := by positivity
    have h2 : (k:ℚ) * 2 ^ s = (k:ℚ) / ((2 ^ (-s).toNat : ℕ) : ℚ) := by
      rw [div_eq_mul_inv]
      congr 1
      rw [q_pow_toNat_neg s hs, inv_inv]
    rw [h2, le_div_iff hp]
    constructor
    · intro hh
      exact_mod_cast hh
    · intro hh
      exact_mod_cast hh

/-- `floatDiv1000` is `toFloatPos` of a fraction worth a thousandth of the
input double. -/
theorem floatDiv1000_pair (u : Nat × Int) :
    ∃ N D : Nat, 0 < D ∧ floatDiv1000 u = toFloatPos N D ∧ (N:ℚ)/D = val u / 1000 := by
  rcases u with ⟨k, s⟩
  by_cases hs : 0 ≤ s
  · refine ⟨k * 2 ^ s.toNat, 1000, by norm_num, by simp [floatDiv1000, hs], ?_⟩
    unfold val
    dsimp only
    push_cast
    rw [q_pow_toNat' s hs]
  · refine ⟨k, 1000 * 2 ^ (-s).toNat, by positivity, by simp [floatDiv1000, hs], ?_⟩
    unfold val
    dsimp only
    push_cast
    rw [q_pow_toNat_neg' s hs, div_mul_eq_div_div, div_eq_mul_inv _ ((2:ℚ) ^ s)⁻¹, inv_inv]
    ring

/-- Dividing by 1000 preserves the order of double values. -/
theorem floatDiv1000_mono (v w : Nat × Int) (h : val v ≤ val w) :
    val (floatDiv1000 v) ≤ val (floatDiv1000 w) := by
  obtain ⟨N, D, hD, hEq, hQ⟩ := floatDiv1000_pair v
  obtain ⟨N', D', hD', hEq', hQ'⟩ := floatDiv1000_pair w
  rw [hEq, hEq']
  apply toFloatPos_mono N D N' D' hD hD'
  rw [hQ, hQ']
  exact (div_le_div_right (by norm_num : (0:ℚ) < 1000)).mpr h

/-- If a dominating double's guard dies within `steps ≤ fuel` divisions, the
loop on any smaller value returns, with at most `steps` divisions taken. -/
theorem magLoop_some_le : ∀ steps : ℕ, ∀ fuel : ℕ, ∀ v c : Nat × Int, ∀ m : ℕ,
    steps ≤ fuel → val v ≤ val c → floatGe1000 (floatDiv1000^[steps] c) = false →
    ∃ w j, magLoop v m fuel = some (w, j) ∧ j ≤ m + steps := by
  intro steps
  induction steps with
  | zero =>
    intro fuel v c m _ hvc hg
    rw [Function.iterate_zero_apply] at hg
    have hv : floatGe1000 v = false := by
      cases hvb : floatGe1000 v with
      | false => rfl
      | true =>
        exfalso
        have h1 := (floatGe1000_iff v).mp hvb
        have h2 := (floatGe1000_iff c).mpr (le_trans h1 hvc)
        rw [hg] at h2
        cases h2
    cases fuel with
    | zero => exact ⟨v, m, by simp [magLoop, hv], le_refl m⟩
    | succ f => exact ⟨v, m, by simp [magLoop, hv], by omega⟩
  | succ st ih =>
    intro fuel v c m hsf hvc hg
    obtain ⟨f, rfl⟩ : ∃ f, fuel = f + 1 := ⟨fuel - 1, by omega⟩
    cases hv : floatGe1000 v with
    | false => exact ⟨v, m, by simp [magLoop, hv], by omega⟩
    | true =>
      have h1 : val (floatDiv1000 v) ≤ val (floatDiv1000 c) := floatDiv1000_mono _ _ hvc
      have hg' : floatGe1000 (floatDiv1000^[st] (floatDiv1000 c)) = false := by
        rw [← Function.iterate_succ_apply]
        exact hg
      obtain ⟨w, j, hw, hj⟩ := ih f (floatDiv1000 v) (floatDiv1000 c) (m + 1)
        (by omega) h1 hg'
      refine ⟨w, j, ?_, by omega⟩
      simp [magLoop, hv, hw]

/-- If a dominated double's guard survives `fuel` divisions, the loop on any
larger value either runs out of fuel or returns with exactly `m + fuel`
divisions taken. -/
theorem magLoop_none_high : ∀ fuel : ℕ, ∀ v c : Nat × Int, ∀ m : ℕ,
    val c ≤ val v → (∀ j, j < fuel → floatGe1000 (floatDiv1000^[j] c) = true) →
    magLoop v m fuel = none ∨ ∃ w, magLoop v m fuel = some (w, m + fuel) := by
  intro fuel
  induction fuel with
  | zero =>
    intro v c m _ _
    cases hv : floatGe1000 v with
    | true => left; simp [magLoop, hv]
    | false => right; exact ⟨v, by simp [magLoop, hv]⟩
  | succ f ih =>
    intro v c m hcv hg
    have hc0 : floatGe1000 c = true := by
      have := hg 0 (by omega)
      rwa [Function.iterate_zero_apply] at this
    have hv : floatGe1000 v = true :=
      (floatGe1000_iff v).mpr (le_trans ((floatGe1000_iff c).mp hc0) hcv)
    have h1 : val (floatDiv1000 c) ≤ val (floatDiv1000 v) := floatDiv1000_mono _ _ hcv
    have hg' : ∀ j, j < f → floatGe1000 (floatDiv1000^[j] (floatDiv1000 c)) = true := by
      intro j hj
      rw [← Function.iterate_succ_apply]
      exact hg (j + 1) (by omega)
    rcases ih (floatDiv1000 v) (floatDiv1000 c) (m + 1) h1 hg' with hnone | ⟨w, hw⟩
    · left
      simp [magLoop, hv, hnone]
    · right
      refine ⟨w, ?_⟩
      have harith : m + 1 + f = m + (f + 1) := by omega
      rw [harith] at hw
      simp [magLoop, hv, hw]

/-- C10 counterexample: 999999999999999936 bytes is below `1000^6`, yet
`float()` already rounds it up to exactly `10^18` (the doubles around `10^18`
are 128 apart), the loop then needs a sixth division, and the six-entry unit
list is indexed out of range: the operation fails inside the claimed safe
range. -/
theorem c10_below_bound_counterexample :
    (999999999999999936 : Int).natAbs < 1000 ^ 6
    ∧ human_format 999999999999999936 = none :=
  ⟨by decide, by decide⟩

/-- C10 (amended): `human_format` indexes its six units by the number of
divisions by 1000; every byte count of absolute value at most
`1000^6 - 65` is indexed safely and yields a string, while every byte count
of absolute value at least `1000^6 - 64` drives the magnitude past index 5 —
`float` conversion rounds such a count up to at least `10^18` — and the
operation fails. -/
theorem c10_unit_index_bounds :
    (∀ b : Int, b.natAbs ≤ 1000 ^ 6 - 65 → (human_format b).isSome = true)
    ∧ (∀ b : Int, 1000 ^ 6 - 64 ≤ b.natAbs → human_format b = none) := by
  constructor
  · intro b hb
    have hmono : val (toFloatPos b.natAbs 1) ≤ val (toFloatPos (1000 ^ 6 - 65) 1) := by
      apply toFloatPos_mono _ _ _ _ (by norm_num) (by norm_num)
      rw [Nat.cast_one, div_one, div_one]
      exact_mod_cast hb
    have hguard : floatGe1000 (floatDiv1000^[5] (toFloatPos (1000 ^ 6 - 65) 1)) = false := by
      decide
    obtain ⟨w, j, hw, hj⟩ := magLoop_some_le 5 6 (toFloatPos b.natAbs 1)
      (toFloatPos (1000 ^ 6 - 65) 1) 0 (by omega) hmono hguard
    unfold human_format
    rw [hw]
    dsimp only
    have hjlen : j < UNITS.length := by
      simp only [UNITS, List.length]
      omega
    obtain ⟨u, hu⟩ : ∃ u, UNITS.get? j = some u := by
      rw [List.get?_eq_get hjlen]
      exact ⟨_, rfl⟩
    rw [hu]
    dsimp only
    split <;> rfl
  · intro b hb
    have hmono : val (toFloatPos (1000 ^ 6 - 64) 1) ≤ val (toFloatPos b.natAbs 1) := by
      apply toFloatPos_mono _ _ _ _ (by norm_num) (by norm_num)
      rw [Nat.cast_one, div_one, div_one]
      exact_mod_cast hb
    have hguards : ∀ j, j < 6 →
        floatGe1000 (floatDiv1000^[j] (toFloatPos (1000 ^ 6 - 64) 1)) = true := by
      decide
    rcases magLoop_none_high 6 (toFloatPos b.natAbs 1) (toFloatPos (1000 ^ 6 - 64) 1) 0
      hmono hguards with hnone | ⟨w, hw⟩
    · unfold human_format
      rw [hnone]
    · unfold human_format
      rw [hw]
      rfl

/-- C10 witness: the theorem applied at a safe input and at `10^18`. -/
theorem c10_unit_index_bounds_witness :
    ((123456 : Int).natAbs ≤ 1000 ^ 6 - 65 ∧ (human_format 123456).isSome = true)
    ∧ (1000 ^ 6 - 64 ≤ ((10 : Int) ^ 18).natAbs ∧ human_format ((10 : Int) ^ 18) = none) :=
  ⟨⟨by decide, c10_unit_index_bounds.1 123456 (by decide)⟩,
   ⟨by decide, c10_unit_index_bounds.2 ((10 : Int) ^ 18) (by decide)⟩⟩

end Cloud
